import Mathlib

/-!
Verification of the Echo journal persistence layer (the journal service of the
repository): the Markdown entry codec (formatEntry / parseMarkdown), the
per-day file store (readDailyJournal / appendToJournal) and the directory-wide
keyword recall scan (searchJournalFiles).

Strings are modelled as lists of characters (`Str`); JavaScript Dates are
modelled as a day index (days since an epoch) plus milliseconds within the
day, with the local-timezone offset abstracted away.  All definitions are
executable and follow the TypeScript source line by line.
-/

/-- Strings as character lists, the working representation for all text. -/
abbrev Str := List Char

/-- Convert a Lean string literal to the working representation. -/
def str (s : String) : Str := s.toList

/-- The characters the JavaScript `trim` method removes: ASCII whitespace,
no-break space, the Ogham space mark, the U+2000 space block, the narrow and
medium mathematical spaces, the ideographic space, the line and paragraph
separators, and the byte-order mark. -/
def isWsChar (c : Char) : Bool :=
  c = ' ' || c = '\t' || c = '\n' || c = '\r' ||
  c = Char.ofNat 11 || c = Char.ofNat 12 || c = Char.ofNat 160 ||
  c = Char.ofNat 5760 || (8192 ≤ c.toNat && c.toNat ≤ 8202) ||
  c = Char.ofNat 8232 || c = Char.ofNat 8233 || c = Char.ofNat 8239 ||
  c = Char.ofNat 8287 || c = Char.ofNat 12288 || c = Char.ofNat 65279

/-- The JavaScript line terminators, which the regex dot never matches:
line feed, carriage return, line separator and paragraph separator. -/
def isLineTermChar (c : Char) : Bool :=
  c = '\n' || c = '\r' || c = Char.ofNat 8232 || c = Char.ofNat 8233

/-- Remove leading whitespace, as the first half of `trim`. -/
def trimLeft (s : Str) : Str := s.dropWhile isWsChar

/-- Remove trailing whitespace, as the second half of `trim`. -/
def trimRight (s : Str) : Str := (s.reverse.dropWhile isWsChar).reverse

/-- The JavaScript `String.prototype.trim`. -/
def jsTrim (s : Str) : Str := trimRight (trimLeft s)

/-- `text.split(chr(10))`: split on newline characters; the empty text gives
one empty field, and a trailing newline produces a final empty field. -/
def splitNl : Str → List Str
  | [] => [[]]
  | '\n' :: rest => [] :: splitNl rest
  | c :: rest =>
    match splitNl rest with
    | [] => [[c]]
    | l :: ls => (c :: l) :: ls

/-- `haystack.includes(needle)`: substring containment, true for the empty
needle, as in JavaScript. -/
def containsSub : Str → Str → Bool
  | h, n => if n.isPrefixOf h then true else
      match h with
      | [] => false
      | _ :: t => containsSub t n

/-- `s.startsWith(c)` for a single-character prefix. -/
def startsWithChar (s : Str) (c : Char) : Bool := s.head? = some c

/-- ASCII lowering, modelling `String.prototype.toLowerCase` on the ASCII
range that the journal text uses. -/
def lowerChar (c : Char) : Char :=
  if 'A' ≤ c ∧ c ≤ 'Z' then Char.ofNat (c.toNat + 32) else c

/-- `s.toLowerCase()` on the modelled character range. -/
def strToLower (s : Str) : Str := s.map lowerChar

/-- ASCII decimal digit test, the JavaScript regex digit class. -/
def isDigit (c : Char) : Bool := '0' ≤ c && c ≤ '9'

/-- Numeric value of a digit character. -/
def charVal (c : Char) : Nat := c.toNat - 48

/-- Decimal digits of a natural number, most significant first. -/
def natStr (n : Nat) : Str := Nat.toDigits 10 n

/-- Decimal rendering of an integer. -/
def intStr (n : Int) : Str := if n < 0 then '-' :: natStr n.natAbs else natStr n.toNat

/-- Two-digit zero-padded rendering used by the date-fns patterns HH, mm,
yy, MM and dd; all reachable inputs are below one hundred. -/
def pad2 (n : Nat) : Str := [Nat.digitChar (n / 10), Nat.digitChar (n % 10)]

/-- A calendar instant: a day index (days since the civil epoch) plus the
milliseconds elapsed within that day.  A value taken from a real JavaScript
Date always has `ms` below 86400000. -/
structure Timestamp where
  day : Int
  ms : Nat
deriving DecidableEq, Repr

/-- `ts.setHours(h, m, 0, 0)`: replace the time of day, letting hour and
minute values beyond the day roll over into later days as JavaScript Dates
do. -/
def setHM (t : Timestamp) (h m : Nat) : Timestamp :=
  let total := h * 3600000 + m * 60000
  { day := t.day + (total / 86400000 : Nat), ms := total % 86400000 }

/-- `date.getTime()`: epoch milliseconds. -/
def getTime (t : Timestamp) : Int := t.day * 86400000 + (t.ms : Int)

/-- The date-fns pattern HH:mm applied to a timestamp. -/
def formatHM (t : Timestamp) : Str :=
  pad2 (t.ms / 3600000) ++ ':' :: pad2 (t.ms % 3600000 / 60000)

/-- Day index of a civil date (Gregorian calendar, month 1..12), by the
standard era decomposition with floor division. -/
def daysFromCivil (y m d : Int) : Int :=
  let yAdj : Int := if m ≤ 2 then y - 1 else y
  let era : Int := Int.fdiv yAdj 400
  let yoe : Int := yAdj - era * 400
  let mp : Int := if m > 2 then m - 3 else m + 9
  let doy : Int := Int.fdiv (153 * mp + 2) 5 + d - 1
  let doe : Int := yoe * 365 + Int.fdiv yoe 4 - Int.fdiv yoe 100 + doy
  era * 146097 + doe - 719468

/-- Civil date (year, month 1..12, day 1..31) of a day index; inverse of
`daysFromCivil`. -/
def civilFromDays (z : Int) : Int × Int × Int :=
  let z' := z + 719468
  let era : Int := Int.fdiv z' 146097
  let doe : Int := z' - era * 146097
  let yoe : Int := Int.fdiv (doe - Int.fdiv doe 1460 + Int.fdiv doe 36524 - Int.fdiv doe 146096) 365
  let y : Int := yoe + era * 400
  let doy : Int := doe - (365 * yoe + Int.fdiv yoe 4 - Int.fdiv yoe 100)
  let mp : Int := Int.fdiv (5 * doy + 2) 153
  let d : Int := doy - Int.fdiv (153 * mp + 2) 5 + 1
  let m : Int := if mp < 10 then mp + 3 else mp - 9
  (if m ≤ 2 then y + 1 else y, m, d)

/-- The JavaScript Date constructor `new Date(y, monthIndex, day)` at local
midnight: the zero-based month index and the day of month are normalized by
rolling over, exactly as JavaScript does. -/
def mkDate (y monthIndex d : Int) : Timestamp :=
  let y' := y + Int.fdiv monthIndex 12
  let m := Int.fmod monthIndex 12 + 1
  { day := daysFromCivil y' m 1 + (d - 1), ms := 0 }

/-- date-fns pattern yyyy-MM-dd. -/
def formatIso (t : Timestamp) : Str :=
  let c := civilFromDays t.day
  intStr c.1 ++ '-' :: pad2 c.2.1.toNat ++ '-' :: pad2 c.2.2.toNat

/-- English month abbreviations for the date-fns pattern MMM. -/
def monthAbbr (m : Int) : Str :=
  match m with
  | 1 => str "Jan" | 2 => str "Feb" | 3 => str "Mar" | 4 => str "Apr"
  | 5 => str "May" | 6 => str "Jun" | 7 => str "Jul" | 8 => str "Aug"
  | 9 => str "Sep" | 10 => str "Oct" | 11 => str "Nov" | _ => str "Dec"

/-- Ordinal suffix used by the date-fns pattern do. -/
def ordSuffix (n : Nat) : Str :=
  if 11 ≤ n % 100 ∧ n % 100 ≤ 13 then str "th"
  else if n % 10 = 1 then str "st"
  else if n % 10 = 2 then str "nd"
  else if n % 10 = 3 then str "rd"
  else str "th"

/-- date-fns pattern MMM do, yyyy used for recall item titles. -/
def formatTitle (t : Timestamp) : Str :=
  let c := civilFromDays t.day
  monthAbbr c.2.1 ++ ' ' :: (natStr c.2.2.toNat ++ ordSuffix c.2.2.toNat) ++ ',' :: ' ' :: intStr c.1

/-- getFileName: a day maps to the six-digit file name yyMMdd plus the
Markdown extension. -/
def getFileName (t : Timestamp) : Str :=
  let c := civilFromDays t.day
  pad2 (Int.fmod c.1 100).toNat ++ pad2 c.2.1.toNat ++ pad2 c.2.2.toNat ++ str ".md"

/-- The source tag of a default entry. -/
def userStr : Str := str "user"

/-- The importance marker text. -/
def marker : Str := str "#important"

/-- The closed set of origin tags of the JournalEntry source field in the
TypeScript data model. -/
def sourceTags : List Str :=
  [str "user", str "web-input", str "obsidian", str "ai-reply", str "chat"]

/-- JournalEntry, the structured record of one logged thought.  The UI-only
enrichments (likes, comments) have no text-format representation and are
omitted; optional TypeScript fields are Options. -/
structure JournalEntry where
  id : Str
  content : Str
  timestamp : Timestamp
  hasTime : Option Bool := none
  source : Str
  isImportant : Bool
  isSaved : Option Bool := none
deriving DecidableEq, Repr

/-- The importance tag appended on write: only when the flag is set and the
content does not already literally contain the marker. -/
def impTag (e : JournalEntry) : Str :=
  if e.isImportant = true ∧ containsSub e.content marker = false then str " #important" else []

/-- formatEntry: render one entry as its Markdown head line.  The source
segment is emitted only when present and not the default tag; entries marked
as untimed (hasTime strictly equal to false) render without the time and
source segments. -/
def formatEntry (e : JournalEntry) : Str :=
  let sourceTag : Str :=
    if e.source ≠ [] ∧ e.source ≠ userStr then ' ' :: '[' :: e.source ++ [']'] else []
  if e.hasTime = some false then
    str "- " ++ e.content ++ impTag e
  else
    str "- " ++ formatHM e.timestamp ++ sourceTag ++ ' ' :: e.content ++ impTag e

/-- Serialize a list of entries to one file text: each entry rendered by
formatEntry, joined by newlines, with a trailing newline. -/
def serializeEntries (es : List JournalEntry) : Str :=
  (List.intercalate (str "\n") (es.map formatEntry)) ++ str "\n"

/-- Greedy match of the leading time group of the timed-entry regex: one or
two digits, a colon, exactly two digits.  Returns hours, minutes and the
unconsumed remainder.  The double-digit reading is preferred; no further
backtracking is possible because a digit can never also be the colon. -/
def parseHM : Str → Option (Nat × Nat × Str)
  | c1 :: c2 :: rest =>
    if isDigit c1 then
      if isDigit c2 then
        match rest with
        | ':' :: m1 :: m2 :: rest2 =>
          if isDigit m1 && isDigit m2 then
            some (10 * charVal c1 + charVal c2, 10 * charVal m1 + charVal m2, rest2)
          else none
        | _ => none
      else if c2 = ':' then
        match rest with
        | m1 :: m2 :: rest2 =>
          if isDigit m1 && isDigit m2 then
            some (charVal c1, 10 * charVal m1 + charVal m2, rest2)
          else none
        | _ => none
      else none
    else none
  | _ => none

/-- Lazy capture of the bracketed source group: the shortest prefix that is
immediately followed by a closing bracket and a space.  Returns the capture
and the text after that bracket-space pair. -/
def findSrcSplit : Str → Option (Str × Str)
  | [] => none
  | c :: rest =>
    if c = ']' ∧ rest.head? = some ' ' then some ([], rest.tail)
    else (findSrcSplit rest).map (fun pr => (c :: pr.1, pr.2))

/-- Match of the optional source group and the content of the timed-entry
regex after the time: a space, then optionally a bracketed source followed by
a space, then the content capture running to the end of the line.  When the
bracketed reading cannot complete, the regex backtracks to the plain reading
in which the bracket text belongs to the content.  Every character of this
region is consumed by a dot (lazily in the source capture, greedily in the
content capture anchored at the true end of the line), and the JavaScript
dot never matches a line terminator, so a line terminator anywhere in the
region makes the whole regex fail. -/
def matchTail : Str → Option (Option Str × Str)
  | ' ' :: rest =>
    if rest.any isLineTermChar then none
    else
      match rest with
      | '[' :: t =>
        match findSrcSplit t with
        | some pr => some (some pr.1, pr.2)
        | none => some (none, rest)
      | _ => some (none, rest)
  | _ => none

/-- The timed-entry regex: a dash and space, one-or-two-digit hours, colon,
two-digit minutes, an optional bracketed source, a space, then the content.
Returns hours, minutes, the optional source capture and the content.  The
fixed prefix can only match dash, space, digits and colon, none of which is
a line terminator; the dot-based rest of the pattern rejects line
terminators inside matchTail. -/
def matchTimeLine (line : Str) : Option (Nat × Nat × Option Str × Str) :=
  match line with
  | '-' :: ' ' :: rest =>
    match parseHM rest with
    | some hmr =>
      match matchTail hmr.2.2 with
      | some sc => some (hmr.1, hmr.2.1, sc.1, sc.2)
      | none => none
    | none => none
  | _ => none

/-- The generic bullet regex: a dash or asterisk, a space, then the content
capture, a greedy dot run anchored at the end of the line; the JavaScript
dot never matches a line terminator, so a line containing one after the
bullet fails this regex too and falls through to the orphan path. -/
def matchBullet : Str → Option Str
  | c :: ' ' :: rest =>
    if c = '-' ∨ c = '*' then
      if rest.any isLineTermChar then none else some rest
    else none
  | _ => none

/-- Entry identifier assigned by the parser: the epoch milliseconds of the
owning day joined to the line index. -/
def mkId (date : Timestamp) (idx : Nat) : Str :=
  intStr (getTime date) ++ '-' :: natStr idx

/-- One step of parseMarkdown on a single line, given the entries parsed so
far in reverse order (most recent first).  Blank lines are skipped; a timed
match pushes a timed entry; a bullet match pushes an untimed entry; any other
line is folded into the previous entry as a continuation, or becomes an
orphan untimed entry when no entry exists yet or the line starts with a
bullet character. -/
def parseStep (date : Timestamp) (idx : Nat) (acc : List JournalEntry) (line : Str) :
    List JournalEntry :=
  let trimmed := jsTrim line
  if trimmed = [] then acc
  else
    match matchTimeLine line with
    | some (h, m, srcOpt, content) =>
      { id := mkId date idx
        content := jsTrim content
        timestamp := setHM date h m
        hasTime := some true
        source := match srcOpt with
          | some s => if s = [] then userStr else s
          | none => userStr
        isImportant := containsSub content marker
        isSaved := some true } :: acc
    | none =>
      match matchBullet line with
      | some content =>
        { id := mkId date idx
          content := jsTrim content
          timestamp := setHM date 0 0
          hasTime := some false
          source := userStr
          isImportant := containsSub content marker
          isSaved := some true } :: acc
      | none =>
        if acc ≠ [] ∧ startsWithChar line '-' = false ∧ startsWithChar line '*' = false then
          match acc with
          | last :: rest => { last with content := last.content ++ '\n' :: trimmed } :: rest
          | [] => acc
        else
          { id := mkId date idx
            content := trimmed
            timestamp := setHM date 0 0
            hasTime := some false
            source := userStr
            isImportant := containsSub trimmed marker
            isSaved := some true } :: acc

/-- The parsing loop over the lines of the text, carrying the line index and
the reversed accumulator. -/
def parseGo (date : Timestamp) : List Str → Nat → List JournalEntry → List JournalEntry
  | [], _, acc => acc.reverse
  | l :: ls, idx, acc => parseGo date ls (idx + 1) (parseStep date idx acc l)

/-- parseMarkdown: parse one day file text into entries, line by line. -/
def parseMarkdown (text : Str) (date : Timestamp) : List JournalEntry :=
  parseGo date (splitNl text) 0 []

/-- True when every timed head line of the text carries a time that stays
inside one day; the regex itself admits hours up to ninety-nine, which a
JavaScript Date rolls over into later days. -/
def timedLineInDay (line : Str) : Bool :=
  match matchTimeLine line with
  | some (h, m, _, _) => h * 60 + m < 1440
  | none => true

/-- The observable fields of an entry for the round-trip property: content,
timestamp, source and importance flag (ids may differ). -/
def obs (e : JournalEntry) : Str × Timestamp × Str × Bool :=
  (e.content, e.timestamp, e.source, e.isImportant)

instance {ε α : Type} [DecidableEq ε] [DecidableEq α] : DecidableEq (Except ε α) :=
  fun a b =>
    match a, b with
    | Except.ok x, Except.ok y =>
      if h : x = y then isTrue (by rw [h]) else isFalse (fun hc => by cases hc; exact h rfl)
    | Except.error x, Except.error y =>
      if h : x = y then isTrue (by rw [h]) else isFalse (fun hc => by cases hc; exact h rfl)
    | Except.ok _, Except.error _ => isFalse (fun hc => by cases hc)
    | Except.error _, Except.ok _ => isFalse (fun hc => by cases hc)

/-- A directory child as produced by the directory-handle enumeration: a
file with its readable text or a read failure, or a subdirectory. -/
inductive DirEntry where
  | file (name : Str) (content : Except Unit Str)
  | sub (name : Str)
deriving DecidableEq, Repr

/-- getFileHandle without creation: the content slot of the first file with
the given name, if any. -/
def lookupFile : List DirEntry → Str → Option (Except Unit Str)
  | [], _ => none
  | DirEntry.file n c :: rest, name => if n = name then some c else lookupFile rest name
  | DirEntry.sub _ :: rest, name => lookupFile rest name

/-- Full-overwrite write through a created-if-absent file handle: replace the
first file of that name, or add the file at the end of the directory. -/
def writeFile : List DirEntry → Str → Str → List DirEntry
  | [], name, c => [DirEntry.file name (Except.ok c)]
  | DirEntry.file n old :: rest, name, c =>
    if n = name then DirEntry.file n (Except.ok c) :: rest
    else DirEntry.file n old :: writeFile rest name c
  | DirEntry.sub d :: rest, name, c => DirEntry.sub d :: writeFile rest name c

/-- readDailyJournal: parse the day file when it exists and is readable;
absence and read failure are both normalized to the empty list by the
surrounding catch. -/
def readDailyJournal (dir : List DirEntry) (date : Timestamp) : List JournalEntry :=
  match lookupFile dir (getFileName date) with
  | some (Except.ok text) => parseMarkdown text date
  | _ => []

/-- True when the day file is absent or its read fails, the situations the
catch of readDailyJournal normalizes to an empty result. -/
def unreadable (x : Option (Except Unit Str)) : Bool :=
  match x with
  | some (Except.ok _) => false
  | _ => true

/-- The text currently in a file, empty when the file is absent or its read
fails (the catch of appendToJournal). -/
def currentTextOf (dir : List DirEntry) (name : Str) : Str :=
  match lookupFile dir name with
  | some (Except.ok t) => t
  | _ => []

/-- `s.endsWith` for the newline character. -/
def endsWithNl (s : Str) : Bool := s.getLast? = some '\n'

/-- appendToJournal: read the current text (empty when absent or
unreadable), serialize just the new entry, insert a separating newline only
when the current text is non-empty and does not already end in one, append a
trailing newline and write the concatenation back. -/
def appendToJournal (dir : List DirEntry) (date : Timestamp) (e : JournalEntry) :
    List DirEntry :=
  let name := getFileName date
  let currentContent := currentTextOf dir name
  let entryText := formatEntry e
  let separator : Str :=
    if currentContent.length > 0 ∧ endsWithNl currentContent = false then str "\n" else []
  writeFile dir name (currentContent ++ separator ++ entryText ++ str "\n")

/-- A recall search result item. -/
structure RecallItem where
  id : Str
  title : Str
  snippet : Str
  fullContent : Str
  date : Str
  rtype : Str
  keyword : Option Str
  relevanceScore : Nat
deriving DecidableEq, Repr

/-- Dated file name test, the regex of six digits followed by the Markdown
extension. -/
def isDatedName (s : Str) : Bool :=
  match s with
  | [c1, c2, c3, c4, c5, c6, p, m, d] =>
    isDigit c1 && isDigit c2 && isDigit c3 && isDigit c4 && isDigit c5 && isDigit c6 &&
    (p = '.') && (m = 'm') && (d = 'd')
  | _ => false

/-- Numeric value of two digit characters. -/
def two (a b : Char) : Nat := 10 * charVal a + charVal b

/-- The day a dated file name denotes: a two-thousand-based year and the
JavaScript Date constructor applied to the zero-based month. -/
def dateFromName (s : Str) : Timestamp :=
  match s with
  | c1 :: c2 :: c3 :: c4 :: c5 :: c6 :: _ =>
    mkDate (2000 + (two c1 c2 : Int)) ((two c3 c4 : Int) - 1) (two c5 c6 : Int)
  | _ => { day := 0, ms := 0 }

/-- Comparison of matched keywords by descending length, the comparator of
the primary-keyword pick. -/
def lenGe (a b : Str) : Prop := b.length ≤ a.length

instance : DecidableRel lenGe := fun a b => inferInstanceAs (Decidable (b.length ≤ a.length))

/-- The recall item built for one matching entry of one file. -/
def mkRecallItem (name : Str) (dateObj : Timestamp) (matched : List Str)
    (e : JournalEntry) : RecallItem :=
  let snippet :=
    if e.content.length > 150 then e.content.take 150 ++ str "..." else e.content
  { id := name ++ '-' :: e.id
    title := formatTitle dateObj
    snippet := snippet
    fullContent := e.content
    date := formatIso dateObj
    rtype := str "journal"
    keyword := (List.insertionSort lenGe matched).head?
    relevanceScore := matched.length }

/-- The per-entry step of the scan: lower the content, keep the keywords it
contains, and build a result item when at least one keyword matched. -/
def entryResult (keywordSet : List Str) (name : Str) (dateObj : Timestamp)
    (e : JournalEntry) : Option RecallItem :=
  let lowerContent := strToLower e.content
  let matched := keywordSet.filter (fun k => containsSub lowerContent k)
  if matched = [] then none else some (mkRecallItem name dateObj matched e)

/-- All result items contributed by one readable dated file. -/
def fileResults (keywordSet : List Str) (name : Str) (text : Str)
    (dateObj : Timestamp) : List RecallItem :=
  (parseMarkdown text dateObj).filterMap (entryResult keywordSet name dateObj)

/-- The result cap of the directory scan in the current code. -/
def searchLimit : Nat := 50

/-- The directory loop of searchJournalFiles: dated files other than the
excluded one are read and parsed inside a per-file catch, so a failing file
contributes nothing and the scan continues; after each file the loop stops
once the accumulated count has reached the cap. -/
def scanGo (keywordSet : List Str) (excludeName : Option Str) :
    List DirEntry → List RecallItem → List RecallItem
  | [], acc => acc
  | DirEntry.sub _ :: rest, acc => scanGo keywordSet excludeName rest acc
  | DirEntry.file name content :: rest, acc =>
    if isDatedName name = true ∧ excludeName ≠ some name then
      match content with
      | Except.error _ => scanGo keywordSet excludeName rest acc
      | Except.ok text =>
        let acc2 := acc ++ fileResults keywordSet name text (dateFromName name)
        if searchLimit ≤ acc2.length then acc2
        else scanGo keywordSet excludeName rest acc2
    else scanGo keywordSet excludeName rest acc

/-- The final comparator of the scan: descending relevance score, ties by
descending date string (the locale comparison modelled as code-point
lexicographic order). -/
def strCmp : Str → Str → Ordering
  | [], [] => Ordering.eq
  | [], _ :: _ => Ordering.lt
  | _ :: _, [] => Ordering.gt
  | a :: as, b :: bs =>
    if a < b then Ordering.lt else if b < a then Ordering.gt else strCmp as bs

/-- An Ordering as the sign of a comparator result. -/
def ordInt : Ordering → Int
  | Ordering.lt => -1
  | Ordering.eq => 0
  | Ordering.gt => 1

/-- The JavaScript sort comparator of the scan results. -/
def cmpItems (a b : RecallItem) : Int :=
  if b.relevanceScore ≠ a.relevanceScore then
    (b.relevanceScore : Int) - (a.relevanceScore : Int)
  else ordInt (strCmp b.date a.date)

/-- The ordering relation induced by the comparator: a may come before b. -/
def itemLe (a b : RecallItem) : Prop := cmpItems a b ≤ 0

instance : DecidableRel itemLe := fun a b => inferInstanceAs (Decidable (cmpItems a b ≤ 0))

/-- searchJournalFiles: scan every dated file of the directory (optionally
skipping the excluded day) for case-insensitively contained keywords, then
sort the collected items by the comparator. -/
def searchJournalFiles (dir : List DirEntry) (keywords : List Str)
    (excludeDate : Option Timestamp) : List RecallItem :=
  let keywordSet := keywords.map strToLower
  let excludeName := excludeDate.map getFileName
  List.insertionSort itemLe (scanGo keywordSet excludeName dir [])

/-- The number of result items a single directory child can contribute to
the scan: zero for subdirectories, excluded, non-dated or unreadable files. -/
def fileMatchCount (keywordSet : List Str) (excludeName : Option Str) :
    DirEntry → Nat
  | DirEntry.sub _ => 0
  | DirEntry.file name content =>
    if isDatedName name = true ∧ excludeName ≠ some name then
      match content with
      | Except.error _ => 0
      | Except.ok text => (fileResults keywordSet name text (dateFromName name)).length
    else 0

/-- The largest single-file contribution within a directory. -/
def maxMatches (keywordSet : List Str) (excludeName : Option Str)
    (dir : List DirEntry) : Nat :=
  (dir.map (fileMatchCount keywordSet excludeName)).foldr max 0

/-- The ordering a date-string comparison result admits: not greater. -/
def strLe (a b : Str) : Prop := strCmp a b ≠ Ordering.gt

/-- Well-formedness of an entry for the amended idempotent-reserialization
property: marked as timed, a time of day a real Date can hold, and
single-line, non-empty, trim-stable content that does not begin with an
opening bracket and holds no line terminator (which the regex dot cannot
recapture), with a source from the closed tag set. -/
def wfC2 (e : JournalEntry) : Bool :=
  decide (e.hasTime ≠ some false) &&
  decide (e.timestamp.ms < 86400000) &&
  decide ('\n' ∉ e.content) &&
  decide (e.content ≠ []) &&
  decide (jsTrim e.content = e.content) &&
  decide (startsWithChar e.content '[' = false) &&
  decide (e.source ∈ sourceTags) &&
  decide (e.content.any isLineTermChar = false)

/-- Well-formedness of an entry for the amended round-trip property: the
conditions of the claim (minute-aligned timestamp on the owning day, ASCII
single-line non-empty content, no time-like prefix, no embedded marker)
together with the amendments the counterexample forces (not flagged
important, marked as timed, trim-stable content not beginning with an
opening bracket, a source from the closed tag set). -/
def wfC1 (date : Timestamp) (e : JournalEntry) : Bool :=
  wfC2 e &&
  decide (e.isImportant = false) &&
  decide (containsSub e.content marker = false) &&
  e.content.all (fun c => decide (c.toNat ≤ 127)) &&
  decide ((parseHM e.content).isNone = true) &&
  decide (e.timestamp.day = date.day) &&
  decide (e.timestamp.ms % 60000 = 0)

/-- Source normalization applied by the parser: a missing or empty capture
falls back to the default tag. -/
def normSource : Option Str → Str
  | some s => if s = [] then userStr else s
  | none => userStr

/-- The entry that re-parsing the serialized head line of a timed entry
produces: the content capture keeps an appended importance tag, the
timestamp is rebuilt from the rendered hour and minute, and the source
normalizes the default tag. -/
def parsedTimed (date : Timestamp) (idx : Nat) (e : JournalEntry) : JournalEntry :=
  { id := mkId date idx
    content := e.content ++ impTag e
    timestamp := setHM date (e.timestamp.ms / 3600000) (e.timestamp.ms % 3600000 / 60000)
    hasTime := some true
    source := if e.source = userStr then userStr else e.source
    isImportant := containsSub (e.content ++ impTag e) marker
    isSaved := some true }

/-- Convenience constructor for concrete test entries; the id and saved flag
never influence the codec. -/
def mkEntry (content : Str) (ts : Timestamp) (ht : Option Bool) (src : Str)
    (imp : Bool) : JournalEntry :=
  { id := [], content := content, timestamp := ts, hasTime := ht, source := src,
    isImportant := imp, isSaved := some false }

/-- A timestamp on day zero of the model at the given hour and minute. -/
def tHM (h m : Nat) : Timestamp := { day := 0, ms := h * 3600000 + m * 60000 }

/-- The day index of a civil date, as a timestamp at local midnight. -/
def civilDay (y m d : Int) : Timestamp := { day := daysFromCivil y m d, ms := 0 }

/-- The entry at a position of a parse result, with a throwaway default for
out-of-range positions; used to name concrete parsed entries. -/
def entryAt (text : Str) (date : Timestamp) (i : Nat) : JournalEntry :=
  (parseMarkdown text date).getD i
    { id := [], content := [], timestamp := { day := 0, ms := 0 }, source := [],
      isImportant := false }

/-! ## Store lemmas and the file-level claims -/

theorem lookupFile_writeFile (dir : List DirEntry) (name c : Str) :
    lookupFile (writeFile dir name c) name = some (Except.ok c) := by
  induction dir with
  | nil => simp [writeFile, lookupFile]
  | cons d rest ih =>
    cases d with
    | file n old =>
      by_cases h : n = name
      · simp [writeFile, lookupFile, h]
      · simp [writeFile, lookupFile, h, ih]
    | sub n => simp [writeFile, lookupFile, ih]

/-- C3: when the day file is absent or its read fails, readDailyJournal
returns the empty list; no error escapes (the function is total into a plain
list). -/
theorem readDailyJournal_absent_empty (dir : List DirEntry) (date : Timestamp)
    (h : unreadable (lookupFile dir (getFileName date)) = true) :
    readDailyJournal dir date = [] := by
  unfold readDailyJournal
  unfold unreadable at h
  cases hl : lookupFile dir (getFileName date) with
  | none => rfl
  | some x =>
    cases x with
    | ok t => rw [hl] at h; exact absurd h (by simp)
    | error u => rfl

theorem readDailyJournal_absent_empty_witness :
    (unreadable (lookupFile [DirEntry.file (str "700101.md") (Except.error ())]
      (getFileName { day := 0, ms := 0 })) = true) ∧
    readDailyJournal [DirEntry.file (str "700101.md") (Except.error ())]
      { day := 0, ms := 0 } = [] :=
  ⟨by decide, readDailyJournal_absent_empty _ _ (by decide)⟩

/-- C4: appendToJournal writes the prior text, a separating newline exactly
when the prior text is non-empty and lacks a trailing newline, the rendered
entry and a trailing newline; at the concrete file of the claim no blank
line appears and nothing duplicates. -/
theorem appendToJournal_preserves :
    (∀ (dir : List DirEntry) (date : Timestamp) (e : JournalEntry),
      lookupFile (appendToJournal dir date e) (getFileName date) =
        some (Except.ok (currentTextOf dir (getFileName date) ++
          (if (currentTextOf dir (getFileName date)).length > 0 ∧
              endsWithNl (currentTextOf dir (getFileName date)) = false
            then str "\n" else []) ++ formatEntry e ++ str "\n"))) ∧
    appendToJournal [DirEntry.file (str "240101.md") (Except.ok (str "- 08:00 a\n"))]
      (civilDay 2024 1 1)
      (mkEntry (str "b") { day := daysFromCivil 2024 1 1, ms := 32400000 }
        (some true) (str "user") false) =
      [DirEntry.file (str "240101.md") (Except.ok (str "- 08:00 a\n- 09:00 b\n"))] := by
  constructor
  · intro dir date e
    unfold appendToJournal
    exact lookupFile_writeFile _ _ _
  · decide

/-- C9 counterexample: an entry marked untimed with a non-default source
does not get its source emitted, against the claim that every entry with a
present, non-default source renders the bracketed source in its head line. -/
theorem formatEntry_untimed_drops_source :
    formatEntry (mkEntry (str "a") (tHM 0 0) (some false) (str "chat") false) = str "- a" ∧
    containsSub (formatEntry (mkEntry (str "a") (tHM 0 0) (some false) (str "chat") false))
      ('[' :: str "chat" ++ [']']) = false := by
  exact ⟨by decide, by decide⟩

/-- C9 amended: on the timed head line the bracketed source is emitted
exactly when the source is present and not the default tag; an entry marked
untimed never emits the source segment, whatever its source. -/
theorem formatEntry_source_tag (e : JournalEntry) :
    (e.hasTime ≠ some false → e.source ≠ [] → e.source ≠ userStr →
      formatEntry e = str "- " ++ formatHM e.timestamp ++
        (' ' :: '[' :: e.source ++ [']']) ++ ' ' :: e.content ++ impTag e) ∧
    (e.hasTime ≠ some false → (e.source = [] ∨ e.source = userStr) →
      formatEntry e = str "- " ++ formatHM e.timestamp ++ ' ' :: e.content ++ impTag e) ∧
    (e.hasTime = some false → formatEntry e = str "- " ++ e.content ++ impTag e) := by
  refine ⟨fun ht h1 h2 => ?_, fun ht h12 => ?_, fun ht => ?_⟩
  · unfold formatEntry
    rw [if_neg ht, if_pos ⟨h1, h2⟩]
  · unfold formatEntry
    have hng : ¬ (e.source ≠ [] ∧ e.source ≠ userStr) := by
      rcases h12 with h | h <;> simp [h]
    rw [if_neg ht, if_neg hng]
    simp
  · unfold formatEntry
    rw [if_pos ht]

theorem formatEntry_source_tag_witness :
    formatEntry (mkEntry (str "x") (tHM 9 0) (some true) (str "chat") false) =
      str "- 09:00 [chat] x" ∧
    formatEntry (mkEntry (str "x") (tHM 9 0) (some true) (str "user") false) =
      str "- 09:00 x" ∧
    formatEntry (mkEntry (str "x") (tHM 9 0) (some false) (str "user") false) =
      str "- x" :=
  ⟨((formatEntry_source_tag _).1 (by decide) (by decide) (by decide)).trans (by decide),
   ((formatEntry_source_tag _).2.1 (by decide) (Or.inr (by decide))).trans (by decide),
   ((formatEntry_source_tag _).2.2 (by decide)).trans (by decide)⟩

/-! ## Recall scan: empty keyword, cap and fault isolation -/

theorem length_filterMap_of_isSome {α β : Type} (f : α → Option β) :
    ∀ l : List α, (∀ a ∈ l, (f a).isSome = true) → (l.filterMap f).length = l.length := by
  intro l
  induction l with
  | nil => intro _; rfl
  | cons a t ih =>
    intro h
    have ha := h a (by simp)
    cases hf : f a with
    | none => rw [hf] at ha; simp at ha
    | some b =>
      rw [List.filterMap_cons, hf]
      simp only [List.length_cons]
      rw [ih (fun x hx => h x (by simp [hx]))]

/-- C10: keyword matching is bare case-insensitive substring containment,
so a keyword list containing the empty string makes every parsed entry of a
readable dated file produce a result item. -/
theorem fileResults_empty_keyword (kws : List Str) (name text : Str) (d : Timestamp)
    (h : str "" ∈ kws) :
    (fileResults (kws.map strToLower) name text d).length =
      (parseMarkdown text d).length := by
  apply length_filterMap_of_isSome
  intro e _
  have hnilc : containsSub (strToLower e.content) [] = true := by
    cases strToLower e.content with
    | nil => rfl
    | cons a t => rfl
  have hmem : ([] : Str) ∈ (kws.map strToLower).filter
      (fun k => containsSub (strToLower e.content) k) := by
    rw [List.mem_filter]
    exact ⟨List.mem_map.mpr ⟨str "", h, rfl⟩, hnilc⟩
  have hne : (kws.map strToLower).filter
      (fun k => containsSub (strToLower e.content) k) ≠ [] :=
    List.ne_nil_of_mem hmem
  simp only [entryResult]
  rw [if_neg hne]
  rfl

theorem fileResults_empty_keyword_witness :
    (str "" ∈ [str "coffee", str ""]) ∧
    (fileResults ([str "coffee", str ""].map strToLower) (str "240101.md")
      (str "- 09:00 a\n- b\nplain") (civilDay 2024 1 1)).length =
      (parseMarkdown (str "- 09:00 a\n- b\nplain") (civilDay 2024 1 1)).length :=
  ⟨by decide, fileResults_empty_keyword _ _ _ _ (by decide)⟩

theorem maxMatches_cons (ks : List Str) (ex : Option Str) (d : DirEntry)
    (rest : List DirEntry) :
    maxMatches ks ex (d :: rest) = max (fileMatchCount ks ex d) (maxMatches ks ex rest) :=
  rfl

theorem scanGo_length_le (ks : List Str) (ex : Option Str) :
    ∀ (dir : List DirEntry) (acc : List RecallItem), acc.length ≤ searchLimit - 1 →
      (scanGo ks ex dir acc).length ≤ searchLimit - 1 + maxMatches ks ex dir := by
  intro dir
  induction dir with
  | nil => intro acc h; simpa [scanGo] using Nat.le_add_right_of_le h
  | cons d rest ih =>
    intro acc h
    rw [maxMatches_cons]
    cases d with
    | sub n =>
      calc (scanGo ks ex (DirEntry.sub n :: rest) acc).length
          = (scanGo ks ex rest acc).length := rfl
        _ ≤ searchLimit - 1 + maxMatches ks ex rest := ih acc h
        _ ≤ _ := Nat.add_le_add_left (Nat.le_max_right _ _) _
    | file name content =>
      by_cases hel : isDatedName name = true ∧ ex ≠ some name
      · cases content with
        | error u =>
          calc (scanGo ks ex (DirEntry.file name (Except.error u) :: rest) acc).length
              = (scanGo ks ex rest acc).length := by simp [scanGo, hel]
            _ ≤ searchLimit - 1 + maxMatches ks ex rest := ih acc h
            _ ≤ _ := Nat.add_le_add_left (Nat.le_max_right _ _) _
        | ok text =>
          have hstep : scanGo ks ex (DirEntry.file name (Except.ok text) :: rest) acc =
              if searchLimit ≤ (acc ++ fileResults ks name text (dateFromName name)).length
              then acc ++ fileResults ks name text (dateFromName name)
              else scanGo ks ex rest (acc ++ fileResults ks name text (dateFromName name)) := by
            simp [scanGo, hel]
          have hcount : fileMatchCount ks ex (DirEntry.file name (Except.ok text)) =
              (fileResults ks name text (dateFromName name)).length := by
            simp [fileMatchCount, hel]
          rw [hstep, hcount]
          by_cases hcap : searchLimit ≤ (acc ++ fileResults ks name text (dateFromName name)).length
          · rw [if_pos hcap]
            have hlen : (acc ++ fileResults ks name text (dateFromName name)).length =
                acc.length + (fileResults ks name text (dateFromName name)).length :=
              List.length_append _ _
            rw [hlen]
            exact Nat.le_trans (Nat.add_le_add_right h _)
              (Nat.add_le_add_left (Nat.le_max_left _ _) _)
          · rw [if_neg hcap]
            have hle : (acc ++ fileResults ks name text (dateFromName name)).length ≤
                searchLimit - 1 := by
              have := Nat.lt_of_not_le hcap
              omega
            exact Nat.le_trans (ih _ hle)
              (Nat.add_le_add_left (Nat.le_max_right _ _) _)
      · calc (scanGo ks ex (DirEntry.file name content :: rest) acc).length
            = (scanGo ks ex rest acc).length := by simp [scanGo, hel]
          _ ≤ searchLimit - 1 + maxMatches ks ex rest := ih acc h
          _ ≤ _ := Nat.add_le_add_left (Nat.le_max_right _ _) _

/-- C7 amended: the scan stops visiting further files once the accumulated
count reaches the cap, so the result count is bounded by the cap minus one
plus the largest single-file contribution; the cap alone does not bound the
result, because the per-file break runs only after a whole file is pushed. -/
theorem searchJournalFiles_length_le (dir : List DirEntry) (kws : List Str)
    (excl : Option Timestamp) :
    (searchJournalFiles dir kws excl).length ≤
      searchLimit - 1 +
        maxMatches (kws.map strToLower) (excl.map getFileName) dir := by
  unfold searchJournalFiles
  rw [List.length_insertionSort]
  exact scanGo_length_le _ _ dir [] (by simp [searchLimit])

/-- C7 counterexample: a single dated file holding fifty-one matching
entries yields fifty-one results, above the cap of fifty. -/
theorem searchJournalFiles_cap_exceeded :
    (searchJournalFiles
      [DirEntry.file (str "240101.md")
        (Except.ok (List.intercalate (str "\n") (List.replicate 51 (str "- a")) ++ str "\n"))]
      [str "a"] none).length = 51 ∧ searchLimit = 50 := by
  exact ⟨by decide, rfl⟩

theorem scanGo_cons_sub (ks : List Str) (ex : Option Str) (n : Str)
    (rest : List DirEntry) (acc : List RecallItem) :
    scanGo ks ex (DirEntry.sub n :: rest) acc = scanGo ks ex rest acc := rfl

theorem scanGo_cons_skip (ks : List Str) (ex : Option Str) (name : Str)
    (content : Except Unit Str) (rest : List DirEntry) (acc : List RecallItem)
    (hnel : ¬ (isDatedName name = true ∧ ex ≠ some name)) :
    scanGo ks ex (DirEntry.file name content :: rest) acc = scanGo ks ex rest acc := by
  simp [scanGo, hnel]

theorem scanGo_cons_error (ks : List Str) (ex : Option Str) (name : Str)
    (rest : List DirEntry) (acc : List RecallItem)
    (hel : isDatedName name = true ∧ ex ≠ some name) :
    scanGo ks ex (DirEntry.file name (Except.error ()) :: rest) acc =
      scanGo ks ex rest acc := by
  simp [scanGo, hel]

theorem scanGo_cons_ok (ks : List Str) (ex : Option Str) (name text : Str)
    (rest : List DirEntry) (acc : List RecallItem)
    (hel : isDatedName name = true ∧ ex ≠ some name) :
    scanGo ks ex (DirEntry.file name (Except.ok text) :: rest) acc =
      if searchLimit ≤ (acc ++ fileResults ks name text (dateFromName name)).length
      then acc ++ fileResults ks name text (dateFromName name)
      else scanGo ks ex rest (acc ++ fileResults ks name text (dateFromName name)) := by
  simp [scanGo, hel]

theorem scanGo_error_skip (ks : List Str) (ex : Option Str) (name : Str) :
    ∀ (dir1 dir2 : List DirEntry) (acc : List RecallItem),
      scanGo ks ex (dir1 ++ DirEntry.file name (Except.error ()) :: dir2) acc =
        scanGo ks ex (dir1 ++ dir2) acc := by
  intro dir1
  induction dir1 with
  | nil =>
    intro dir2 acc
    by_cases hel : isDatedName name = true ∧ ex ≠ some name
    · simpa using scanGo_cons_error ks ex name dir2 acc hel
    · simpa using scanGo_cons_skip ks ex name (Except.error ()) dir2 acc hel
  | cons d rest ih =>
    intro dir2 acc
    cases d with
    | sub n =>
      rw [List.cons_append, scanGo_cons_sub, List.cons_append, scanGo_cons_sub]
      exact ih dir2 acc
    | file n c =>
      by_cases hel : isDatedName n = true ∧ ex ≠ some n
      · cases c with
        | error u =>
          rw [List.cons_append, scanGo_cons_error _ _ _ _ _ hel,
            List.cons_append, scanGo_cons_error _ _ _ _ _ hel]
          exact ih dir2 acc
        | ok text =>
          rw [List.cons_append, scanGo_cons_ok _ _ _ _ _ _ hel,
            List.cons_append, scanGo_cons_ok _ _ _ _ _ _ hel]
          by_cases hcap :
            searchLimit ≤ (acc ++ fileResults ks n text (dateFromName n)).length
          · rw [if_pos hcap, if_pos hcap]
          · rw [if_neg hcap, if_neg hcap]
            exact ih dir2 _
      · rw [List.cons_append, scanGo_cons_skip _ _ _ _ _ _ hel,
          List.cons_append, scanGo_cons_skip _ _ _ _ _ _ hel]
        exact ih dir2 acc

/-- C5 amended: a dated file whose read fails leaves the scan result exactly
as if the file were not there: the scan does not raise, and only that file's
contributions are dropped; whether the matches of every other readable file
appear is then governed by the same cap logic as without the failure. -/
theorem searchJournalFiles_error_isolated (dir1 dir2 : List DirEntry) (name : Str)
    (kws : List Str) (excl : Option Timestamp) :
    searchJournalFiles (dir1 ++ DirEntry.file name (Except.error ()) :: dir2) kws excl =
      searchJournalFiles (dir1 ++ dir2) kws excl := by
  simp only [searchJournalFiles]
  rw [scanGo_error_skip]

/-- C5 counterexample: with a fifty-match file first, a failing file second
and a readable matching file third, the result keeps only the first file's
matches, so the readable third file's match is absent, against the claim
that every other readable dated file's matches still appear. -/
theorem searchJournalFiles_error_claim_fails :
    (searchJournalFiles
      [DirEntry.file (str "240101.md")
        (Except.ok (List.intercalate (str "\n") (List.replicate 50 (str "- a")) ++ str "\n")),
       DirEntry.file (str "240102.md") (Except.error ()),
       DirEntry.file (str "240103.md") (Except.ok (str "- a\n"))]
      [str "a"] none).length = 50 ∧
    ((searchJournalFiles
      [DirEntry.file (str "240101.md")
        (Except.ok (List.intercalate (str "\n") (List.replicate 50 (str "- a")) ++ str "\n")),
       DirEntry.file (str "240102.md") (Except.error ()),
       DirEntry.file (str "240103.md") (Except.ok (str "- a\n"))]
      [str "a"] none).filter (fun i => i.date = str "2024-01-03")).length = 0 ∧
    (fileResults [str "a"] (str "240103.md") (str "- a\n")
      (dateFromName (str "240103.md"))).length = 1 := by
  exact ⟨by decide, by decide, by decide⟩

/-! ## Recall scan ordering -/

theorem strCmp_swap : ∀ a b : Str, (strCmp a b).swap = strCmp b a := by
  intro a
  induction a with
  | nil => intro b; cases b <;> rfl
  | cons x xs ih =>
    intro b
    cases b with
    | nil => rfl
    | cons y ys =>
      show (if x < y then Ordering.lt else if y < x then Ordering.gt else strCmp xs ys).swap =
        (if y < x then Ordering.lt else if x < y then Ordering.gt else strCmp ys xs)
      rcases lt_trichotomy x y with h | h | h
      · rw [if_pos h, if_neg (lt_asymm h), if_pos h]
        rfl
      · rw [if_neg (h ▸ lt_irrefl x), if_neg (h ▸ lt_irrefl x),
          if_neg (h ▸ lt_irrefl x), if_neg (h ▸ lt_irrefl x)]
        exact ih ys
      · rw [if_neg (lt_asymm h), if_pos h, if_pos h]
        rfl

theorem strCmp_cons_ne_gt (x y : Char) (xs ys : Str) :
    strCmp (x :: xs) (y :: ys) ≠ Ordering.gt ↔
      (x < y ∨ (x = y ∧ strCmp xs ys ≠ Ordering.gt)) := by
  show (if x < y then Ordering.lt else if y < x then Ordering.gt else strCmp xs ys) ≠
      Ordering.gt ↔ _
  by_cases h1 : x < y
  · rw [if_pos h1]
    simp [h1]
  · by_cases h2 : y < x
    · rw [if_neg h1, if_pos h2]
      have hne : x ≠ y := fun heq => absurd (heq ▸ h2) (lt_irrefl x)
      simp [h1, hne]
    · have heq : x = y := le_antisymm (not_lt.mp h2) (not_lt.mp h1)
      rw [if_neg h1, if_neg h2]
      simp [h1, heq]

theorem strCmp_le_trans : ∀ a b c : Str, strCmp a b ≠ Ordering.gt →
    strCmp b c ≠ Ordering.gt → strCmp a c ≠ Ordering.gt := by
  intro a
  induction a with
  | nil =>
    intro b c _ _
    cases c <;> simp [strCmp]
  | cons x xs ih =>
    intro b c h1 h2
    cases b with
    | nil => simp [strCmp] at h1
    | cons y ys =>
      cases c with
      | nil => simp [strCmp] at h2
      | cons z zs =>
        rw [strCmp_cons_ne_gt] at h1 h2 ⊢
        rcases h1 with h1 | ⟨h1e, h1r⟩
        · rcases h2 with h2 | ⟨h2e, h2r⟩
          · exact Or.inl (lt_trans h1 h2)
          · exact Or.inl (h2e ▸ h1)
        · rcases h2 with h2 | ⟨h2e, h2r⟩
          · exact Or.inl (h1e ▸ h2)
          · exact Or.inr ⟨h1e.trans h2e, ih ys zs h1r h2r⟩

theorem itemLe_iff (a b : RecallItem) :
    itemLe a b ↔ (b.relevanceScore < a.relevanceScore ∨
      (b.relevanceScore = a.relevanceScore ∧ strLe b.date a.date)) := by
  unfold itemLe cmpItems strLe
  by_cases h : b.relevanceScore = a.relevanceScore
  · rw [if_neg (fun hne => hne h)]
    rw [h]
    simp only [lt_irrefl, false_or, true_and]
    cases strCmp b.date a.date <;> simp [ordInt]
  · rw [if_pos h]
    simp only [h, false_and, or_false]
    constructor <;> intro hx <;> omega

/-- C6 amended: the scan result is sorted descending by the stored
relevance score, which counts matching keyword-list entries with
multiplicity, with ties broken by descending date string. -/
theorem searchJournalFiles_sorted (dir : List DirEntry) (kws : List Str)
    (excl : Option Timestamp) :
    List.Pairwise (fun a b : RecallItem => b.relevanceScore < a.relevanceScore ∨
      (b.relevanceScore = a.relevanceScore ∧ strLe b.date a.date))
      (searchJournalFiles dir kws excl) := by
  haveI : IsTotal RecallItem itemLe := by
    constructor
    intro a b
    rw [itemLe_iff, itemLe_iff]
    rcases Nat.lt_trichotomy a.relevanceScore b.relevanceScore with h | h | h
    · exact Or.inr (Or.inl h)
    · cases hc : strCmp b.date a.date with
      | gt =>
        refine Or.inr (Or.inr ⟨h, ?_⟩)
        unfold strLe
        rw [← strCmp_swap, hc]
        decide
      | lt => exact Or.inl (Or.inr ⟨h.symm, by unfold strLe; rw [hc]; decide⟩)
      | eq => exact Or.inl (Or.inr ⟨h.symm, by unfold strLe; rw [hc]; decide⟩)
    · exact Or.inl (Or.inl h)
  haveI : IsTrans RecallItem itemLe := by
    constructor
    intro a b c hab hbc
    rw [itemLe_iff] at hab hbc ⊢
    rcases hab with hab | ⟨habe, habd⟩
    · rcases hbc with hbc | ⟨hbce, hbcd⟩
      · exact Or.inl (lt_trans hbc hab)
      · exact Or.inl (hbce ▸ hab)
    · rcases hbc with hbc | ⟨hbce, hbcd⟩
      · exact Or.inl (habe ▸ hbc)
      · exact Or.inr ⟨hbce.trans habe, strCmp_le_trans _ _ _ hbcd habd⟩
  have h := List.sorted_insertionSort itemLe
    (scanGo (kws.map strToLower) (excl.map getFileName) dir [])
  simp only [searchJournalFiles]
  exact List.Pairwise.imp (fun hab => (itemLe_iff _ _).mp hab) h

/-- C6 counterexample: with the keyword list holding a duplicate, an entry
matched by a single distinct keyword scores two and, being newer, ranks
above the entry matched by two distinct keywords, against the claimed
ordering by count of distinct matched keywords. -/
theorem searchJournalFiles_distinct_rank_fails :
    ((searchJournalFiles
      [DirEntry.file (str "240102.md") (Except.ok (str "- a\n")),
       DirEntry.file (str "240101.md") (Except.ok (str "- b c\n"))]
      [str "a", str "a", str "b", str "c"] none).map
        (fun i => (i.fullContent, i.relevanceScore))) =
      [(str "a", 2), (str "b c", 2)] ∧
    (([str "a", str "a", str "b", str "c"].map strToLower).dedup.filter
      (fun k => containsSub (strToLower (str "a")) k)).length = 1 ∧
    (([str "a", str "a", str "b", str "c"].map strToLower).dedup.filter
      (fun k => containsSub (strToLower (str "b c")) k)).length = 2 :=
  ⟨by decide, by decide, by decide⟩

/-! ## Parser step shapes -/

theorem parseStep_skip (date : Timestamp) (idx : Nat) (acc : List JournalEntry)
    (line : Str) (ht : jsTrim line = []) : parseStep date idx acc line = acc := by
  unfold parseStep
  rw [if_pos ht]

theorem parseStep_timed (date : Timestamp) (idx : Nat) (acc : List JournalEntry)
    (line : Str) (h m : Nat) (srcOpt : Option Str) (content : Str)
    (ht : jsTrim line ≠ []) (hm : matchTimeLine line = some (h, m, srcOpt, content)) :
    parseStep date idx acc line =
      { id := mkId date idx
        content := jsTrim content
        timestamp := setHM date h m
        hasTime := some true
        source := normSource srcOpt
        isImportant := containsSub content marker
        isSaved := some true } :: acc := by
  unfold parseStep
  rw [if_neg ht]
  simp only [hm]
  cases srcOpt <;> rfl

theorem parseStep_bullet (date : Timestamp) (idx : Nat) (acc : List JournalEntry)
    (line : Str) (content : Str) (ht : jsTrim line ≠ [])
    (hm : matchTimeLine line = none) (hb : matchBullet line = some content) :
    parseStep date idx acc line =
      { id := mkId date idx
        content := jsTrim content
        timestamp := setHM date 0 0
        hasTime := some false
        source := userStr
        isImportant := containsSub content marker
        isSaved := some true } :: acc := by
  unfold parseStep
  rw [if_neg ht]
  simp only [hm, hb]

theorem parseStep_cont (date : Timestamp) (idx : Nat) (last : JournalEntry)
    (rest : List JournalEntry) (line : Str) (ht : jsTrim line ≠ [])
    (hm : matchTimeLine line = none) (hb : matchBullet line = none)
    (hc1 : startsWithChar line '-' = false) (hc2 : startsWithChar line '*' = false) :
    parseStep date idx (last :: rest) line =
      { last with content := last.content ++ '\n' :: jsTrim line } :: rest := by
  unfold parseStep
  rw [if_neg ht]
  simp only [hm, hb]
  rw [if_pos ⟨by simp, hc1, hc2⟩]

theorem parseStep_orphan (date : Timestamp) (idx : Nat) (acc : List JournalEntry)
    (line : Str) (ht : jsTrim line ≠ []) (hm : matchTimeLine line = none)
    (hb : matchBullet line = none)
    (hor : ¬ (acc ≠ [] ∧ startsWithChar line '-' = false ∧ startsWithChar line '*' = false)) :
    parseStep date idx acc line =
      { id := mkId date idx
        content := jsTrim line
        timestamp := setHM date 0 0
        hasTime := some false
        source := userStr
        isImportant := containsSub (jsTrim line) marker
        isSaved := some true } :: acc := by
  unfold parseStep
  rw [if_neg ht]
  simp only [hm, hb]
  rw [if_neg hor]

/-! ## C8: parsed timestamps against the owning day -/

theorem setHM_day_eq (date : Timestamp) (h m : Nat) (hlt : h * 60 + m < 1440) :
    setHM date h m = { day := date.day, ms := h * 3600000 + m * 60000 } := by
  have hd : (h * 3600000 + m * 60000) / 86400000 = 0 := Nat.div_eq_of_lt (by omega)
  have hmod : (h * 3600000 + m * 60000) % 86400000 = h * 3600000 + m * 60000 :=
    Nat.mod_eq_of_lt (by omega)
  simp [setHM, hd, hmod]

theorem setHM_zero (date : Timestamp) : setHM date 0 0 = { day := date.day, ms := 0 } := by
  simp [setHM]

theorem parseStep_inDay (date : Timestamp) (idx : Nat) (acc : List JournalEntry)
    (line : Str) (hline : timedLineInDay line = true)
    (hacc : ∀ e ∈ acc, e.timestamp.day = date.day ∧
      (e.hasTime = some false → e.timestamp.ms = 0)) :
    ∀ e ∈ parseStep date idx acc line,
      e.timestamp.day = date.day ∧ (e.hasTime = some false → e.timestamp.ms = 0) := by
  intro e he
  by_cases ht : jsTrim line = []
  · rw [parseStep_skip date idx acc line ht] at he
    exact hacc e he
  · cases hm : matchTimeLine line with
    | some q =>
      obtain ⟨h, m, srcOpt, content⟩ := q
      rw [parseStep_timed date idx acc line h m srcOpt content ht hm] at he
      have hlt : h * 60 + m < 1440 := by
        unfold timedLineInDay at hline
        rw [hm] at hline
        exact of_decide_eq_true hline
      rcases List.mem_cons.mp he with he | he
      · subst he
        refine ⟨?_, ?_⟩
        · show (setHM date h m).day = date.day
          rw [setHM_day_eq date h m hlt]
        · intro hft
          simp at hft
      · exact hacc e he
    | none =>
      cases hb : matchBullet line with
      | some content =>
        rw [parseStep_bullet date idx acc line content ht hm hb] at he
        rcases List.mem_cons.mp he with he | he
        · subst he
          refine ⟨?_, fun _ => ?_⟩
          · show (setHM date 0 0).day = date.day
            rw [setHM_zero]
          · show (setHM date 0 0).ms = 0
            rw [setHM_zero]
        · exact hacc e he
      | none =>
        by_cases hcond : acc ≠ [] ∧ startsWithChar line '-' = false ∧
            startsWithChar line '*' = false
        · obtain ⟨hne, hc1, hc2⟩ := hcond
          cases acc with
          | nil => exact absurd rfl hne
          | cons last rest =>
            rw [parseStep_cont date idx last rest line ht hm hb hc1 hc2] at he
            rcases List.mem_cons.mp he with he | he
            · subst he
              exact hacc last (List.mem_cons_self _ _)
            · exact hacc e (List.mem_cons_of_mem _ he)
        · rw [parseStep_orphan date idx acc line ht hm hb hcond] at he
          rcases List.mem_cons.mp he with he | he
          · subst he
            refine ⟨?_, fun _ => ?_⟩
            · show (setHM date 0 0).day = date.day
              rw [setHM_zero]
            · show (setHM date 0 0).ms = 0
              rw [setHM_zero]
          · exact hacc e he

theorem parseGo_inDay (date : Timestamp) :
    ∀ (lines : List Str) (idx : Nat) (acc : List JournalEntry),
      (∀ l ∈ lines, timedLineInDay l = true) →
      (∀ e ∈ acc, e.timestamp.day = date.day ∧
        (e.hasTime = some false → e.timestamp.ms = 0)) →
      ∀ e ∈ parseGo date lines idx acc,
        e.timestamp.day = date.day ∧ (e.hasTime = some false → e.timestamp.ms = 0) := by
  intro lines
  induction lines with
  | nil =>
    intro idx acc _ hacc e he
    rw [parseGo] at he
    exact hacc e (List.mem_reverse.mp he)
  | cons l ls ih =>
    intro idx acc hlines hacc e he
    rw [parseGo] at he
    exact ih (idx + 1) (parseStep date idx acc l)
      (fun x hx => hlines x (List.mem_cons_of_mem _ hx))
      (parseStep_inDay date idx acc l (hlines l (List.mem_cons_self _ _)) hacc) e he

/-- C8 amended: when every timed head line of the text names a time inside
one day, every parsed entry's timestamp has the owning day as its date
component, and entries created without an explicit time sit at the start of
that day; head lines with larger hour or minute values (which the regex
admits) roll into later days. -/
theorem parseMarkdown_day_bounded (text : Str) (date : Timestamp) (e : JournalEntry)
    (hl : (splitNl text).all timedLineInDay = true)
    (he : e ∈ parseMarkdown text date) :
    e.timestamp.day = date.day ∧ (e.hasTime = some false → e.timestamp.ms = 0) := by
  revert he
  show e ∈ parseMarkdown text date → _
  unfold parseMarkdown
  exact parseGo_inDay date (splitNl text) 0 []
    (fun l hml => List.all_eq_true.mp hl l hml)
    (fun x hx => absurd hx (List.not_mem_nil x)) e

theorem parseMarkdown_day_bounded_witness :
    ((splitNl (str "- 09:00 a\n- b\nplain")).all timedLineInDay = true) ∧
    entryAt (str "- 09:00 a\n- b\nplain") { day := 5, ms := 123 } 1 ∈
      parseMarkdown (str "- 09:00 a\n- b\nplain") { day := 5, ms := 123 } ∧
    (entryAt (str "- 09:00 a\n- b\nplain") { day := 5, ms := 123 } 1).hasTime =
      some false ∧
    ((entryAt (str "- 09:00 a\n- b\nplain") { day := 5, ms := 123 } 1).timestamp.day =
      ({ day := 5, ms := 123 } : Timestamp).day ∧
     ((entryAt (str "- 09:00 a\n- b\nplain") { day := 5, ms := 123 } 1).hasTime =
        some false →
      (entryAt (str "- 09:00 a\n- b\nplain") { day := 5, ms := 123 } 1).timestamp.ms = 0)) :=
  ⟨by decide, by decide, by decide,
    parseMarkdown_day_bounded (str "- 09:00 a\n- b\nplain") { day := 5, ms := 123 }
      (entryAt (str "- 09:00 a\n- b\nplain") { day := 5, ms := 123 } 1)
      (by decide) (by decide)⟩

/-- C8 counterexample: the regex accepts hour twenty-five, and the Date
rolls it into the next day, so the parsed timestamp's date component is not
the owning day. -/
theorem parseMarkdown_day_escapes :
    (parseMarkdown (str "- 25:00 x") { day := 0, ms := 0 }).map
      (fun e => e.timestamp.day) = [1] := by
  decide

/-! ## Trim facts for serialized lines -/

theorem trimLeft_of_trim_eq (c : Str) (h : jsTrim c = c) : trimLeft c = c := by
  have h1 : (trimLeft c).length ≤ c.length := (List.dropWhile_sublist _).length_le
  have h2 : (jsTrim c).length ≤ (trimLeft c).length := by
    unfold jsTrim trimRight
    rw [List.length_reverse]
    calc ((trimLeft c).reverse.dropWhile isWsChar).length
        ≤ (trimLeft c).reverse.length := (List.dropWhile_sublist _).length_le
      _ = (trimLeft c).length := List.length_reverse _
  have heq : (trimLeft c).length = c.length := by
    have h3 : (jsTrim c).length = c.length := by rw [h]
    omega
  exact (List.dropWhile_sublist _).eq_of_length heq

theorem head_not_ws_of_trim (a : Char) (t : Str) (h : jsTrim (a :: t) = a :: t) :
    isWsChar a = false := by
  have h1 := trimLeft_of_trim_eq (a :: t) h
  unfold trimLeft at h1
  rw [List.dropWhile_cons] at h1
  by_cases hw : isWsChar a = true
  · rw [if_pos hw] at h1
    have h2 : (t.dropWhile isWsChar).length ≤ t.length := (List.dropWhile_sublist _).length_le
    have h3 : (t.dropWhile isWsChar).length = t.length + 1 := by rw [h1]; rfl
    omega
  · exact Bool.not_eq_true _ ▸ (by simpa using hw)

theorem dropWhile_reverse_marker (c : Str) :
    (c ++ ' ' :: marker).reverse.dropWhile isWsChar = (c ++ ' ' :: marker).reverse := by
  rw [List.reverse_append]
  have hm1 : (' ' :: marker).reverse = 't' :: str "natropmi# " := by decide
  rw [hm1, List.cons_append, List.dropWhile_cons, if_neg (by decide)]

theorem trimRight_append_marker (c : Str) :
    trimRight (c ++ ' ' :: marker) = c ++ ' ' :: marker := by
  unfold trimRight
  rw [dropWhile_reverse_marker, List.reverse_reverse]

theorem trimLeft_cons_append (a : Char) (t X : Str) (ha : isWsChar a = false) :
    trimLeft ((a :: t) ++ X) = (a :: t) ++ X := by
  unfold trimLeft
  rw [List.cons_append, List.dropWhile_cons, if_neg (by simp [ha])]

theorem jsTrim_append_marker (c : Str) (h : jsTrim c = c) (hne : c ≠ []) :
    jsTrim (c ++ ' ' :: marker) = c ++ ' ' :: marker := by
  cases c with
  | nil => exact absurd rfl hne
  | cons a t =>
    unfold jsTrim
    rw [trimLeft_cons_append a t _ (head_not_ws_of_trim a t h)]
    exact trimRight_append_marker _

theorem jsTrim_dash_ne (rest : Str) : jsTrim ('-' :: rest) ≠ [] := by
  unfold jsTrim
  have h1 : trimLeft ('-' :: rest) = '-' :: rest := by
    unfold trimLeft
    rw [List.dropWhile_cons, if_neg (by decide)]
  rw [h1]
  unfold trimRight
  intro hc
  rw [List.reverse_eq_nil_iff, List.dropWhile_eq_nil_iff] at hc
  have hdm : '-' ∈ ('-' :: rest).reverse := List.mem_reverse.mpr (List.mem_cons_self _ _)
  have := hc _ hdm
  exact absurd this (by decide)

/-! ## Regex fragments on rendered lines -/

theorem isDigit_digitChar (n : Nat) (h : n ≤ 9) : isDigit (Nat.digitChar n) = true := by
  interval_cases n <;> decide

theorem charVal_digitChar (n : Nat) (h : n ≤ 9) : charVal (Nat.digitChar n) = n := by
  interval_cases n <;> decide

theorem digitChar_ne_nl (n : Nat) (h : n ≤ 9) : Nat.digitChar n ≠ '\n' := by
  interval_cases n <;> decide

theorem parseHM_pad (h m : Nat) (r : Str) (hh : h < 100) (hm : m < 100) :
    parseHM (pad2 h ++ ':' :: (pad2 m ++ r)) = some (h, m, r) := by
  show parseHM (Nat.digitChar (h / 10) :: Nat.digitChar (h % 10) :: ':' ::
    Nat.digitChar (m / 10) :: Nat.digitChar (m % 10) :: r) = some (h, m, r)
  simp only [parseHM]
  rw [if_pos (isDigit_digitChar _ (by omega)), if_pos (isDigit_digitChar _ (by omega))]
  rw [if_pos (by rw [isDigit_digitChar _ (by omega), isDigit_digitChar _ (by omega)]; rfl)]
  rw [charVal_digitChar _ (by omega), charVal_digitChar _ (by omega),
    charVal_digitChar _ (by omega), charVal_digitChar _ (by omega)]
  have e1 : 10 * (h / 10) + h % 10 = h := by omega
  have e2 : 10 * (m / 10) + m % 10 = m := by omega
  rw [e1, e2]

theorem findSrcSplit_append (s r : Str) (h : ']' ∉ s) :
    findSrcSplit (s ++ ']' :: ' ' :: r) = some (s, r) := by
  induction s with
  | nil =>
    show findSrcSplit (']' :: ' ' :: r) = some ([], r)
    unfold findSrcSplit
    rw [if_pos ⟨rfl, rfl⟩]
    rfl
  | cons a as ih =>
    have hmem : ']' ∉ as := fun hc => h (List.mem_cons_of_mem _ hc)
    have ha : a ≠ ']' := fun hc => h (hc ▸ List.mem_cons_self _ _)
    show findSrcSplit (a :: (as ++ ']' :: ' ' :: r)) = some (a :: as, r)
    unfold findSrcSplit
    rw [if_neg (fun hcon => ha hcon.1), ih hmem]
    rfl

theorem matchTail_src (s r : Str) (h : ']' ∉ s)
    (hs : s.any isLineTermChar = false) (hr : r.any isLineTermChar = false) :
    matchTail (' ' :: '[' :: (s ++ ']' :: ' ' :: r)) = some (some s, r) := by
  have hterm : ('[' :: (s ++ ']' :: ' ' :: r)).any isLineTermChar = false := by
    simp only [List.any_cons, List.any_append, hs, hr]
    decide
  simp only [matchTail]
  rw [hterm, if_neg (by decide), findSrcSplit_append s r h]

theorem matchTail_plain (a : Char) (t : Str) (ha : a ≠ '[')
    (hterm : (a :: t).any isLineTermChar = false) :
    matchTail (' ' :: a :: t) = some (none, a :: t) := by
  simp only [matchTail]
  rw [hterm, if_neg (by decide)]
  split
  · rename_i t2 heq
    injection heq with h1 h2
    exact absurd h1 ha
  · rfl

theorem matchTimeLine_shape (h m : Nat) (tl : Str) (srcOpt : Option Str) (cont : Str)
    (hh : h < 100) (hm2 : m < 100)
    (htail : matchTail tl = some (srcOpt, cont)) :
    matchTimeLine ('-' :: ' ' :: (pad2 h ++ ':' :: (pad2 m ++ tl))) =
      some (h, m, srcOpt, cont) := by
  simp only [matchTimeLine]
  rw [parseHM_pad h m tl hh hm2]
  simp only []
  rw [htail]

theorem startsWithChar_cons_false (a : Char) (t : Str) (c : Char)
    (h : startsWithChar (a :: t) c = false) : a ≠ c := by
  intro hac
  subst hac
  simp [startsWithChar] at h

theorem source_not_bracket (s : Str) (hs : s ∈ sourceTags) : ']' ∉ s := by
  simp only [sourceTags, List.mem_cons, List.not_mem_nil, or_false] at hs
  rcases hs with h | h | h | h | h <;> rw [h] <;> decide

theorem source_no_term (s : Str) (hs : s ∈ sourceTags) :
    s.any isLineTermChar = false := by
  simp only [sourceTags, List.mem_cons, List.not_mem_nil, or_false] at hs
  rcases hs with h | h | h | h | h <;> rw [h] <;> decide

theorem source_ne_nil (s : Str) (hs : s ∈ sourceTags) : s ≠ [] := by
  simp only [sourceTags, List.mem_cons, List.not_mem_nil, or_false] at hs
  rcases hs with h | h | h | h | h <;> rw [h] <;> decide

theorem formatEntry_shape (e : JournalEntry) (hht : e.hasTime ≠ some false) :
    formatEntry e = '-' :: ' ' :: (pad2 (e.timestamp.ms / 3600000) ++ ':' ::
      (pad2 (e.timestamp.ms % 3600000 / 60000) ++
        ((if e.source ≠ [] ∧ e.source ≠ userStr then ' ' :: '[' :: e.source ++ [']'] else []) ++
          ' ' :: (e.content ++ impTag e)))) := by
  unfold formatEntry formatHM
  rw [if_neg hht]
  have hds : str "- " = ['-', ' '] := rfl
  by_cases hc : e.source ≠ [] ∧ e.source ≠ userStr
  · rw [if_pos hc, hds]
    simp [List.append_assoc]
  · rw [if_neg hc, hds]
    simp [List.append_assoc]

theorem impTag_no_term (e : JournalEntry) : (impTag e).any isLineTermChar = false := by
  unfold impTag
  split
  · decide
  · rfl

theorem matchTimeLine_formatted (e : JournalEntry)
    (hht : e.hasTime ≠ some false) (hms : e.timestamp.ms < 86400000)
    (hne : e.content ≠ []) (hbr : startsWithChar e.content '[' = false)
    (hsrc : e.source ∈ sourceTags)
    (hcterm : e.content.any isLineTermChar = false) :
    matchTimeLine (formatEntry e) =
      some (e.timestamp.ms / 3600000, e.timestamp.ms % 3600000 / 60000,
        (if e.source = userStr then none else some e.source), e.content ++ impTag e) := by
  have hh : e.timestamp.ms / 3600000 < 100 := by omega
  have hm2 : e.timestamp.ms % 3600000 / 60000 < 100 := by omega
  rw [formatEntry_shape e hht]
  by_cases hu : e.source = userStr
  · have hng : ¬ (e.source ≠ [] ∧ e.source ≠ userStr) := fun hcon => hcon.2 hu
    rw [if_neg hng, if_pos hu, List.nil_append]
    apply matchTimeLine_shape _ _ _ _ _ hh hm2
    cases hcc : e.content with
    | nil => exact absurd hcc hne
    | cons a t =>
      rw [List.cons_append]
      rw [hcc] at hbr hcterm
      have ha : a ≠ '[' := startsWithChar_cons_false a t '[' hbr
      have hterm2 : (a :: (t ++ impTag e)).any isLineTermChar = false := by
        rw [← List.cons_append, List.any_append, hcterm, impTag_no_term]
        rfl
      exact matchTail_plain a _ ha hterm2
  · have hpos : e.source ≠ [] ∧ e.source ≠ userStr := ⟨source_ne_nil _ hsrc, hu⟩
    rw [if_pos hpos, if_neg hu]
    have hS : (' ' :: '[' :: e.source ++ [']']) ++ ' ' :: (e.content ++ impTag e) =
        ' ' :: '[' :: (e.source ++ ']' :: ' ' :: (e.content ++ impTag e)) := by
      simp [List.append_assoc]
    rw [hS]
    apply matchTimeLine_shape _ _ _ _ _ hh hm2
    have hr : (e.content ++ impTag e).any isLineTermChar = false := by
      rw [List.any_append, hcterm, impTag_no_term]
      rfl
    exact matchTail_src _ _ (source_not_bracket _ hsrc) (source_no_term _ hsrc) hr

theorem jsTrim_content_tag (e : JournalEntry) (htr : jsTrim e.content = e.content)
    (hne : e.content ≠ []) :
    jsTrim (e.content ++ impTag e) = e.content ++ impTag e := by
  unfold impTag
  by_cases hit : e.isImportant = true ∧ containsSub e.content marker = false
  · rw [if_pos hit]
    have hmk : str " #important" = ' ' :: marker := rfl
    rw [hmk]
    exact jsTrim_append_marker e.content htr hne
  · rw [if_neg hit, List.append_nil]
    exact htr

theorem parseStep_formatted (date : Timestamp) (idx : Nat) (acc : List JournalEntry)
    (e : JournalEntry) (hht : e.hasTime ≠ some false) (hms : e.timestamp.ms < 86400000)
    (htr : jsTrim e.content = e.content) (hne : e.content ≠ [])
    (hbr : startsWithChar e.content '[' = false) (hsrc : e.source ∈ sourceTags)
    (hcterm : e.content.any isLineTermChar = false) :
    parseStep date idx acc (formatEntry e) = parsedTimed date idx e :: acc := by
  have hmt := matchTimeLine_formatted e hht hms hne hbr hsrc hcterm
  have hnn : jsTrim (formatEntry e) ≠ [] := by
    rw [formatEntry_shape e hht]
    exact jsTrim_dash_ne _
  rw [parseStep_timed date idx acc (formatEntry e) _ _ _ _ hnn hmt]
  have hct : jsTrim (e.content ++ impTag e) = e.content ++ impTag e :=
    jsTrim_content_tag e htr hne
  rw [hct]
  unfold parsedTimed
  by_cases hu : e.source = userStr
  · simp only [if_pos hu]
    rfl
  · simp only [if_neg hu]
    have hn : normSource (some e.source) = e.source := by
      show (if e.source = [] then userStr else e.source) = e.source
      rw [if_neg (source_ne_nil _ hsrc)]
    rw [hn]

theorem impTag_parsedTimed (date : Timestamp) (idx : Nat) (e : JournalEntry) :
    impTag (parsedTimed date idx e) = [] := by
  unfold impTag
  rw [if_neg]
  intro hc
  have h1 := hc.1
  have h2 := hc.2
  unfold parsedTimed at h1 h2
  simp only [] at h1 h2
  rw [h1] at h2
  exact absurd h2 (by decide)

theorem formatEntry_parsedTimed (date : Timestamp) (idx : Nat) (e : JournalEntry)
    (hht : e.hasTime ≠ some false) (hms : e.timestamp.ms < 86400000) :
    formatEntry (parsedTimed date idx e) = formatEntry e := by
  have hpht : (parsedTimed date idx e).hasTime ≠ some false := by
    unfold parsedTimed
    simp
  rw [formatEntry_shape _ hpht, formatEntry_shape e hht]
  have hpms : (parsedTimed date idx e).timestamp.ms =
      (e.timestamp.ms / 3600000) * 3600000 + (e.timestamp.ms % 3600000 / 60000) * 60000 := by
    show (setHM date (e.timestamp.ms / 3600000) (e.timestamp.ms % 3600000 / 60000)).ms = _
    unfold setHM
    exact Nat.mod_eq_of_lt (by omega)
  have hH : (parsedTimed date idx e).timestamp.ms / 3600000 = e.timestamp.ms / 3600000 := by
    rw [hpms]; omega
  have hM : (parsedTimed date idx e).timestamp.ms % 3600000 / 60000 =
      e.timestamp.ms % 3600000 / 60000 := by
    rw [hpms]; omega
  rw [hH, hM, impTag_parsedTimed]
  have hCp : (parsedTimed date idx e).content = e.content ++ impTag e := rfl
  rw [hCp, List.append_nil]
  by_cases hu : e.source = userStr
  · have hSp : (parsedTimed date idx e).source = userStr := by
      show (if e.source = userStr then userStr else e.source) = userStr
      rw [if_pos hu]
    rw [hSp, hu]
  · have hSp : (parsedTimed date idx e).source = e.source := by
      show (if e.source = userStr then userStr else e.source) = e.source
      rw [if_neg hu]
    rw [hSp]

theorem obs_parsedTimed (date : Timestamp) (idx : Nat) (e : JournalEntry)
    (hms : e.timestamp.ms < 86400000) (himp : e.isImportant = false)
    (hmk : containsSub e.content marker = false)
    (hday : e.timestamp.day = date.day) (halign : e.timestamp.ms % 60000 = 0) :
    obs (parsedTimed date idx e) = obs e := by
  have hT : impTag e = [] := by
    unfold impTag
    rw [if_neg]
    intro hc
    rw [himp] at hc
    exact absurd hc.1 (by decide)
  have hts : setHM date (e.timestamp.ms / 3600000) (e.timestamp.ms % 3600000 / 60000) =
      e.timestamp := by
    have htot : (e.timestamp.ms / 3600000) * 3600000 +
        (e.timestamp.ms % 3600000 / 60000) * 60000 = e.timestamp.ms := by omega
    unfold setHM
    rw [htot]
    simp only [Nat.div_eq_of_lt hms, Nat.mod_eq_of_lt hms]
    simp [← hday]
  unfold obs parsedTimed
  simp only [hT, List.append_nil, hts, hmk, himp]
  by_cases hu : e.source = userStr
  · simp [hu]
  · simp [hu]

/-! ## Serialized text splits back into its lines -/

theorem pad2_no_nl (n : Nat) (hn : n < 100) : '\n' ∉ pad2 n := by
  intro hmem
  simp only [pad2, List.mem_cons, List.not_mem_nil, or_false] at hmem
  rcases hmem with h | h
  · exact digitChar_ne_nl (n / 10) (by omega) h.symm
  · exact digitChar_ne_nl (n % 10) (by omega) h.symm

theorem source_no_nl (s : Str) (hs : s ∈ sourceTags) : '\n' ∉ s := by
  simp only [sourceTags, List.mem_cons, List.not_mem_nil, or_false] at hs
  rcases hs with h | h | h | h | h <;> rw [h] <;> decide

theorem impTag_no_nl (e : JournalEntry) : '\n' ∉ impTag e := by
  unfold impTag
  split
  · decide
  · simp

theorem noNl_formatEntry (e : JournalEntry) (hht : e.hasTime ≠ some false)
    (hms : e.timestamp.ms < 86400000) (hcn : '\n' ∉ e.content)
    (hsrc : e.source ∈ sourceTags) : '\n' ∉ formatEntry e := by
  rw [formatEntry_shape e hht]
  intro hmem
  rcases List.mem_cons.mp hmem with h | hmem2
  · exact absurd h (by decide)
  rcases List.mem_cons.mp hmem2 with h | hmem3
  · exact absurd h (by decide)
  rcases List.mem_append.mp hmem3 with h | hmem4
  · exact pad2_no_nl _ (by omega) h
  rcases List.mem_cons.mp hmem4 with h | hmem5
  · exact absurd h (by decide)
  rcases List.mem_append.mp hmem5 with h | hmem6
  · exact pad2_no_nl _ (by omega) h
  rcases List.mem_append.mp hmem6 with h | hmem7
  · revert h
    split
    · intro h
      rcases List.mem_cons.mp h with h | h2
      · exact absurd h (by decide)
      rcases List.mem_cons.mp h2 with h | h3
      · exact absurd h (by decide)
      rcases List.mem_append.mp h3 with h | h4
      · exact source_no_nl _ hsrc h
      rcases List.mem_cons.mp h4 with h | h5
      · exact absurd h (by decide)
      · exact absurd h5 (List.not_mem_nil _)
    · intro h
      exact absurd h (List.not_mem_nil _)
  rcases List.mem_cons.mp hmem7 with h | hmem8
  · exact absurd h (by decide)
  rcases List.mem_append.mp hmem8 with h | h
  · exact hcn h
  · exact impTag_no_nl e h

theorem splitNl_cons_ne (c : Char) (t : Str) (hc : c ≠ '\n') :
    splitNl (c :: t) = match splitNl t with
      | [] => [[c]]
      | l :: ls => (c :: l) :: ls := by
  rw [splitNl.eq_def]
  split
  · rename_i heq
    cases heq
  · rename_i rest heq
    injection heq with h1 h2
    exact absurd h1 hc
  · rename_i c2 rest heq
    injection heq with h1 h2
    subst h1
    subst h2
    rfl

theorem splitNl_append (l r : Str) (hl : '\n' ∉ l) :
    splitNl (l ++ '\n' :: r) = l :: splitNl r := by
  induction l with
  | nil => rfl
  | cons a t ih =>
    have ha : a ≠ '\n' := fun hc => hl (hc ▸ List.mem_cons_self _ _)
    have ht : '\n' ∉ t := fun hc => hl (List.mem_cons_of_mem _ hc)
    rw [List.cons_append, splitNl_cons_ne a _ ha, ih ht]

theorem intercalate_nl_cons (a : Str) (t : List Str) :
    List.intercalate (str "\n") (a :: t) =
      if t = [] then a else a ++ '\n' :: List.intercalate (str "\n") t := by
  cases t with
  | nil => simp [List.intercalate]
  | cons b t2 =>
    rw [if_neg (by simp)]
    show (List.intersperse (str "\n") (a :: b :: t2)).flatten = _
    rw [List.intersperse_cons_cons]
    show a ++ (str "\n" ++ (List.intersperse (str "\n") (b :: t2)).flatten) = _
    rfl

theorem splitNl_join (ls : List Str) :
    ls ≠ [] → (∀ l ∈ ls, '\n' ∉ l) →
    splitNl (List.intercalate (str "\n") ls ++ str "\n") = ls ++ [[]] := by
  induction ls with
  | nil => intro h _; exact absurd rfl h
  | cons a t ih =>
    intro _ h
    have ha : '\n' ∉ a := h a (List.mem_cons_self _ _)
    rw [intercalate_nl_cons]
    by_cases hte : t = []
    · subst hte
      rw [if_pos rfl]
      show splitNl (a ++ '\n' :: []) = [a, []]
      rw [splitNl_append a [] ha]
      rfl
    · rw [if_neg hte]
      have hassoc : (a ++ '\n' :: List.intercalate (str "\n") t) ++ str "\n" =
          a ++ '\n' :: (List.intercalate (str "\n") t ++ str "\n") := by
        simp [List.append_assoc]
      rw [hassoc, splitNl_append a _ ha,
        ih hte (fun l hl => h l (List.mem_cons_of_mem _ hl))]
      rfl

/-! ## Round trip and idempotence -/

theorem wfC2_spec (e : JournalEntry) (h : wfC2 e = true) :
    e.hasTime ≠ some false ∧ e.timestamp.ms < 86400000 ∧ '\n' ∉ e.content ∧
    e.content ≠ [] ∧ jsTrim e.content = e.content ∧
    startsWithChar e.content '[' = false ∧ e.source ∈ sourceTags ∧
    e.content.any isLineTermChar = false := by
  unfold wfC2 at h
  simp only [Bool.and_eq_true, decide_eq_true_eq] at h
  exact ⟨h.1.1.1.1.1.1.1, h.1.1.1.1.1.1.2, h.1.1.1.1.1.2, h.1.1.1.1.2, h.1.1.1.2,
    h.1.1.2, h.1.2, h.2⟩

theorem wfC1_spec (e : JournalEntry) (date : Timestamp) (h : wfC1 date e = true) :
    wfC2 e = true ∧ e.isImportant = false ∧ containsSub e.content marker = false ∧
    e.timestamp.day = date.day ∧ e.timestamp.ms % 60000 = 0 := by
  unfold wfC1 at h
  simp only [Bool.and_eq_true, decide_eq_true_eq] at h
  exact ⟨h.1.1.1.1.1.1, h.1.1.1.1.1.2, h.1.1.1.1.2, h.1.2, h.2⟩

theorem parseGo_formatted_fmt (date : Timestamp) :
    ∀ (es : List JournalEntry) (idx : Nat) (acc : List JournalEntry),
      (∀ e ∈ es, wfC2 e = true) →
      (parseGo date (es.map formatEntry ++ [[]]) idx acc).map formatEntry =
        acc.reverse.map formatEntry ++ es.map formatEntry := by
  intro es
  induction es with
  | nil =>
    intro idx acc _
    have hstep : parseStep date idx acc [] = acc := parseStep_skip _ _ _ _ rfl
    show ((parseGo date [[]] idx acc).map formatEntry) = _
    rw [parseGo, hstep, parseGo]
    simp
  | cons e es2 ih =>
    intro idx acc hwf
    obtain ⟨h1, h2, h3, h4, h5, h6, h7, h8⟩ :=
      wfC2_spec e (hwf e (List.mem_cons_self _ _))
    show (parseGo date (formatEntry e :: (es2.map formatEntry ++ [[]])) idx acc).map
        formatEntry = _
    rw [parseGo, parseStep_formatted date idx acc e h1 h2 h5 h4 h6 h7 h8,
      ih (idx + 1) (parsedTimed date idx e :: acc)
        (fun x hx => hwf x (List.mem_cons_of_mem _ hx))]
    simp [formatEntry_parsedTimed date idx e h1 h2]

theorem parseGo_formatted_obs (date : Timestamp) :
    ∀ (es : List JournalEntry) (idx : Nat) (acc : List JournalEntry),
      (∀ e ∈ es, wfC1 date e = true) →
      (parseGo date (es.map formatEntry ++ [[]]) idx acc).map obs =
        acc.reverse.map obs ++ es.map obs := by
  intro es
  induction es with
  | nil =>
    intro idx acc _
    have hstep : parseStep date idx acc [] = acc := parseStep_skip _ _ _ _ rfl
    show ((parseGo date [[]] idx acc).map obs) = _
    rw [parseGo, hstep, parseGo]
    simp
  | cons e es2 ih =>
    intro idx acc hwf
    obtain ⟨hwf2, hi1, hi2, hi3, hi4⟩ := wfC1_spec e date (hwf e (List.mem_cons_self _ _))
    obtain ⟨h1, h2, h3, h4, h5, h6, h7, h8⟩ := wfC2_spec e hwf2
    show (parseGo date (formatEntry e :: (es2.map formatEntry ++ [[]])) idx acc).map
        obs = _
    rw [parseGo, parseStep_formatted date idx acc e h1 h2 h5 h4 h6 h7 h8,
      ih (idx + 1) (parsedTimed date idx e :: acc)
        (fun x hx => hwf x (List.mem_cons_of_mem _ hx))]
    simp [obs_parsedTimed date idx e h2 hi1 hi2 hi3 hi4]

/-- C1 amended: for entries satisfying the claim's conditions (minute
aligned timestamp on the owning day, single-line non-empty content without
the marker) that in addition are marked timed, not flagged important, have
trim-stable content not beginning with an opening bracket, and carry a
source from the closed tag set, parsing the serialization for the same day
reproduces content, time, source and importance; ids may differ. -/
theorem parse_serialize_roundTrip (es : List JournalEntry) (date : Timestamp)
    (h : es.all (wfC1 date) = true) :
    (parseMarkdown (serializeEntries es) date).map obs = es.map obs := by
  by_cases hnes : es = []
  · subst hnes
    rfl
  · have hall : ∀ e ∈ es, wfC1 date e = true := fun e he => List.all_eq_true.mp h e he
    have hnl : ∀ l ∈ es.map formatEntry, '\n' ∉ l := by
      intro l hl
      obtain ⟨e, he, rfl⟩ := List.mem_map.mp hl
      obtain ⟨hwf2, _, _, _, _⟩ := wfC1_spec e date (hall e he)
      obtain ⟨h1, h2, h3, _, _, _, h7, _⟩ := wfC2_spec e hwf2
      exact noNl_formatEntry e h1 h2 h3 h7
    unfold parseMarkdown
    have hser : serializeEntries es =
        List.intercalate (str "\n") (es.map formatEntry) ++ str "\n" := rfl
    rw [hser, splitNl_join (es.map formatEntry) (by simpa using hnes) hnl]
    have hgo := parseGo_formatted_obs date es 0 [] hall
    simpa using hgo

theorem parse_serialize_roundTrip_witness :
    ([mkEntry (str "hello") { day := 7, ms := 32400000 } (some true) (str "chat") false,
      mkEntry (str "world") { day := 7, ms := 86340000 } (some true) (str "user") false].all
        (wfC1 { day := 7, ms := 0 }) = true) ∧
    (parseMarkdown (serializeEntries
      [mkEntry (str "hello") { day := 7, ms := 32400000 } (some true) (str "chat") false,
       mkEntry (str "world") { day := 7, ms := 86340000 } (some true) (str "user") false])
      { day := 7, ms := 0 }).map obs =
      [mkEntry (str "hello") { day := 7, ms := 32400000 } (some true) (str "chat") false,
       mkEntry (str "world") { day := 7, ms := 86340000 } (some true) (str "user") false].map
        obs :=
  ⟨by decide, parse_serialize_roundTrip _ _ (by decide)⟩

/-- C1 counterexample: an entry satisfying every condition of the claim but
flagged important gains the literal marker text in its content on the round
trip, so content equality fails. -/
theorem parse_serialize_roundTrip_claim_fails :
    containsSub (str "a") marker = false ∧
    (str "a" ≠ []) ∧ ('\n' ∉ str "a") ∧
    ((str "a").all (fun c => decide (c.toNat ≤ 127)) = true) ∧
    ((parseHM (str "a")).isNone = true) ∧
    ((tHM 9 0).ms % 60000 = 0) ∧
    (parseMarkdown (serializeEntries
      [mkEntry (str "a") (tHM 9 0) (some true) (str "user") true]) (tHM 0 0)).map obs ≠
      [mkEntry (str "a") (tHM 9 0) (some true) (str "user") true].map obs := by
  refine ⟨by decide, by decide, by decide, by decide, by decide, by decide, by decide⟩

/-- C2 amended: serializing the parse of serialized text reproduces the
text exactly for entries that are marked timed with a valid time of day and
have single-line, non-empty, trim-stable content not beginning with an
opening bracket and a source from the closed tag set; an untimed entry whose
content begins with a one-digit-hour time is re-normalized on write, which
the counterexample exhibits. -/
theorem serialize_parse_idempotent (es : List JournalEntry) (date : Timestamp)
    (h : es.all wfC2 = true) :
    serializeEntries (parseMarkdown (serializeEntries es) date) = serializeEntries es := by
  by_cases hnes : es = []
  · subst hnes
    rfl
  · have hall : ∀ e ∈ es, wfC2 e = true := fun e he => List.all_eq_true.mp h e he
    have hnl : ∀ l ∈ es.map formatEntry, '\n' ∉ l := by
      intro l hl
      obtain ⟨e, he, rfl⟩ := List.mem_map.mp hl
      obtain ⟨h1, h2, h3, _, _, _, h7, _⟩ := wfC2_spec e (hall e he)
      exact noNl_formatEntry e h1 h2 h3 h7
    have key : (parseMarkdown (serializeEntries es) date).map formatEntry =
        es.map formatEntry := by
      unfold parseMarkdown
      have hser : serializeEntries es =
          List.intercalate (str "\n") (es.map formatEntry) ++ str "\n" := rfl
      rw [hser, splitNl_join (es.map formatEntry) (by simpa using hnes) hnl]
      have hgo := parseGo_formatted_fmt date es 0 [] hall
      simpa using hgo
    show List.intercalate (str "\n")
        ((parseMarkdown (serializeEntries es) date).map formatEntry) ++ str "\n" = _
    rw [key]
    rfl

theorem serialize_parse_idempotent_witness :
    ([mkEntry (str "note [x] done") (tHM 9 5) (some true) (str "web-input") true,
      mkEntry (str "plain") (tHM 23 59) none (str "user") false].all wfC2 = true) ∧
    serializeEntries (parseMarkdown (serializeEntries
      [mkEntry (str "note [x] done") (tHM 9 5) (some true) (str "web-input") true,
       mkEntry (str "plain") (tHM 23 59) none (str "user") false]) (tHM 0 0)) =
      serializeEntries
        [mkEntry (str "note [x] done") (tHM 9 5) (some true) (str "web-input") true,
         mkEntry (str "plain") (tHM 23 59) none (str "user") false] :=
  ⟨by decide, serialize_parse_idempotent _ _ (by decide)⟩

/-- C2 counterexample: the serialization of an untimed entry whose content
begins with a one-digit-hour time re-parses as a timed entry and is written
back with a two-digit hour, so re-serialization changes the text. -/
theorem serialize_parse_idempotent_claim_fails :
    serializeEntries (parseMarkdown (serializeEntries
      [mkEntry (str "9:00 x") (tHM 0 0) (some false) (str "user") false]) (tHM 0 0)) ≠
      serializeEntries [mkEntry (str "9:00 x") (tHM 0 0) (some false) (str "user") false] ∧
    serializeEntries [mkEntry (str "9:00 x") (tHM 0 0) (some false) (str "user") false] =
      str "- 9:00 x\n" ∧
    serializeEntries (parseMarkdown (str "- 9:00 x\n") (tHM 0 0)) = str "- 09:00 x\n" := by
  refine ⟨by decide, by decide, by decide⟩
